import Mathlib

/-!
Verification development for the CUDA Pippenger bucket-method MSM engine
(`src/aztec/gpu/msm/kernel.cu`).

The kernels orchestrate calls to collaborator primitives (`fq_gpu` field ops,
`g1_gpu::add`, `g1_gpu::doubling`) that live outside the MSM source.  Points
are therefore modelled abstractly: a type `G` carrying a commutative-monoid
addition stands for the curve group, the monoid zero stands for the all-zero
coordinate triple (the identity sentinel), and the raw addition formula is
modelled from the spec (it yields the all-zero triple exactly when both
operands are the same point).  All kernel control flow — loop bounds, limb
traversal, index arithmetic, the presence or absence of the is_zero/doubling
substitution at each addition site — is embedded directly from the CUDA
source.  Concrete evaluations instantiate `G := ℕ` (scalar multiples of a
single generic base point).
-/

section PointModel

variable {G : Type} [AddCommMonoid G] [DecidableEq G]

/-- Modelled from the spec: `g1_gpu::add` (curve addition collaborator, not
under the MSM source).  Spec §3: the all-zero coordinate triple is the
identity, and the raw addition formula "evaluates to zero coordinates" exactly
in "the curve-law edge case when adding a point to itself"; otherwise the
collaborator is assumed to compute the correct group sum (including when an
operand is the identity). -/
def g1_add (a b : G) : G :=
  if a = b then 0 else a + b

/-- Modelled from the spec: `g1_gpu::doubling` (curve doubling collaborator,
assumed correct). -/
def g1_doubling (a : G) : G := a + a

/-- An addition site that performs the is_zero check on the raw result and, on
all-zero coordinates, substitutes the doubling of the FIRST operand
(e.g. `kernel.cu:482-505`: `add(line_sum, final_sum, final_sum)` followed by
`doubling(line_sum, final_sum)`). -/
def addCheckFst (a b : G) : G :=
  let r := g1_add a b
  if r = 0 then g1_doubling a else r

/-- An addition site that performs the is_zero check on the raw result and, on
all-zero coordinates, substitutes the doubling of the SECOND operand
(e.g. the commented accumulation loop `kernel.cu:339-364`:
`add(buckets, points, buckets)` followed by `doubling(points, buckets)`). -/
def addCheckSnd (a b : G) : G :=
  let r := g1_add a b
  if r = 0 then g1_doubling b else r

end PointModel

section BitLoop

variable {G : Type} [AddCommMonoid G] [DecidableEq G]

/-- Inner bit loop shared verbatim by `double_and_add_kernel`
(`kernel.cu:151-165`) and `final_accumulation_kernel` (`kernel.cu:744-758`):
`for (int i = 64; i >= 0; i--) { if ((limb >> i) & 1) R := add(Q, R); if (i != 0) R := doubling(R); }`.
The counter argument is the number of remaining iterations, so `bitLoop v Q 65 R`
runs `i = 64` down to `i = 0`.  Note the loop really starts at bit 64 (one past
the top bit of a 64-bit limb) and that the additions carry NO is_zero/doubling
substitution. -/
def bitLoop (v : ℕ) (Q : G) : ℕ → G → G
  | 0, R => R
  | i + 1, R =>
    let R1 := if (v >>> i) &&& 1 = 1 then g1_add Q R else R
    let R2 := if i ≠ 0 then g1_doubling R1 else R1
    bitLoop v Q i R2

/-- Outer limb loop of the same two kernels (`kernel.cu:149` / `742`):
`for (int j = 3; j >= 0; j--)` — the counter is the number of remaining limbs,
so `limbLoop e Q 4 R` processes limbs 3, 2, 1, 0. -/
def limbLoop (e : ℕ → ℕ) (Q : G) : ℕ → G → G
  | 0, R => R
  | j + 1, R => limbLoop e Q j (bitLoop (e j) Q 65 R)

/-- The double-and-add scalar multiplication `R := e * Q` as both kernels
compute it: `R` initialised to the identity, then the limb/bit loops
(`kernel.cu:136-166` and `728-759`). -/
def scalarMulLoop (e : ℕ → ℕ) (Q : G) : G :=
  limbLoop e Q 4 0

/-- `double_and_add_kernel` (`kernel.cu:122-180`).  Scalars are 4-limb values
(limb function), points are curve points; for each point index `z` the kernel
computes `R = scalar_z * point_z` by double-and-add and accumulates it into
`final_result` with a raw `g1_gpu::add` (`kernel.cu:167-177`) — this final
addition carries NO is_zero/doubling substitution. -/
def double_and_add_kernel (scalars : ℕ → ℕ → ℕ) (points : ℕ → G) (n : ℕ) : G :=
  (List.range n).foldl (fun acc z => g1_add (scalarMulLoop (scalars z) (points z)) acc) 0

end BitLoop

section Decompose

/-- Value of a 4-limb little-endian scalar (`fr_gpu.data[0..3]`, 64-bit limbs).
Limbs are modelled as a function; well-formedness (each limb `< 2^64`, indices
`≥ 4` zero) is hypothesised where needed. -/
def fr_val (scalar : ℕ → ℕ) : ℕ :=
  scalar 0 + scalar 1 * 2 ^ 64 + scalar 2 * 2 ^ 128 + scalar 3 * 2 ^ 192

/-- `decompose_scalar_digit` (`kernel.cu:206-222`).  Extracts the `width`-bit
digit number `num` from a 4-limb scalar: pick the limb holding the window's
low bit, shift it down, fold in the next limb when the window straddles a limb
boundary and that limb exists, and mask to `width` bits.  The C `+=` and `<<`
act on `uint64_t`, hence the explicit `% 2^64` reductions; the C mask
`(1 << width) - 1` is an `int`, faithful for `width ≤ 30`. -/
def decompose_scalar_digit (scalar : ℕ → ℕ) (num width : ℕ) : ℕ :=
  let limb_lsb_idx := num * width / 64
  let shift_bits := num * width % 64
  let rv := scalar limb_lsb_idx >>> shift_bits
  let rv2 :=
    if 64 < shift_bits + width ∧ limb_lsb_idx + 1 < 4 then
      (rv + (scalar (limb_lsb_idx + 1) <<< (64 - shift_bits)) % 2 ^ 64) % 2 ^ 64
    else rv
  rv2 &&& ((1 <<< width) - 1)

/-- The limbs strictly above limb `l`, as a single number (proof abbreviation
for reasoning about `decompose_scalar_digit`). -/
def hiPart (scalar : ℕ → ℕ) (l : ℕ) : ℕ :=
  scalar (l + 1) + scalar (l + 2) * 2 ^ 64 + scalar (l + 3) * 2 ^ 128

end Decompose

section BucketKernels

variable {G : Type} [AddCommMonoid G] [DecidableEq G]

/-- `initialize_buckets_kernel` (`kernel.cu:187-201`): loads the field zero
into every coordinate of every bucket slot, i.e. every bucket becomes the
all-zero (identity) point. -/
def init_buckets_kernel : ℕ → G := fun _ => 0

/-- `split_scalars_kernel` (`kernel.cu:227-243`): thread `tid` (one per point)
writes, for each bucket module `i`, the packed key `(i << c) | digit` at flat
position `current_index = i * npoints + tid`.  Embedded as the map from a flat
index to the key it receives. -/
def bucket_indices (scalars : ℕ → ℕ → ℕ) (npoints c : ℕ) : ℕ → ℕ :=
  fun idx => ((idx / npoints) <<< c) ||| decompose_scalar_digit (scalars (idx % npoints)) (idx / npoints) c

/-- `point_indices` written by `split_scalars_kernel` (`kernel.cu:241`):
position `i * npoints + tid` records point index `tid`. -/
def point_indices (npoints : ℕ) : ℕ → ℕ := fun idx => idx % npoints

/-- Modelled from the spec: §4.2 counting sort.  The sorting of the
`(bucket_indices, point_indices)` pairs by packed key is done by library code
(CUB) and the host orchestrator, neither of which is under the MSM source.
For key `k` the matching entries are exactly the points of module `k >> c`
whose flat entry carries key `k`, in point order (the sort is a stable
counting sort).  `bucket_sizes` is the per-key count, clipped to the
`num_bucket_modules * 2^c` keys that exist. -/
def bucket_sizes (scalars : ℕ → ℕ → ℕ) (npoints m c : ℕ) : ℕ → ℕ :=
  fun k =>
    if k < m * 2 ^ c then
      ((List.range npoints).filter
        (fun t => bucket_indices scalars npoints c (k / 2 ^ c * npoints + t) = k)).length
    else 0

/-- Modelled from the spec: §4.2 counting sort — per-key offsets are the
prefix sums of the sizes. -/
def bucket_offsets (scalars : ℕ → ℕ → ℕ) (npoints m c : ℕ) : ℕ → ℕ :=
  fun k => ∑ j in Finset.range k, bucket_sizes scalars npoints m c j

/-- Modelled from the spec: §4.2 counting sort — the point-index array sorted
by packed bucket key (stable within a key). -/
def sorted_point_indices (scalars : ℕ → ℕ → ℕ) (npoints m c : ℕ) : ℕ → ℕ :=
  fun j =>
    ((List.range (m * 2 ^ c)).flatMap
      (fun k => (List.range npoints).filter
        (fun t => bucket_indices scalars npoints c (k / 2 ^ c * npoints + t) = k))).getD j 0

/-- `accumulate_buckets_kernel`, ACTIVE code (`kernel.cu:289-365`): loads the
bucket's index, size and offset, prints the size, returns early when the size
is zero, and then loops a `thrust::reduce` call whose returned value is bound
to no variable and never stored — the kernel writes nothing to `buckets`
(the hand-written accumulation loop at `kernel.cu:339-364` is commented out).
Net effect on every bucket slot: unchanged. -/
def accumulate_buckets_kernel (buckets : ℕ → G) (bucket_sizes : ℕ → ℕ) : ℕ → G :=
  fun b => if bucket_sizes b = 0 then buckets b else buckets b

/-- The commented-out hand-written accumulation loop inside
`accumulate_buckets_kernel` (`kernel.cu:339-364`), which the spec (§4.3, §9)
records as the intended semantics: for a bucket of size `s` at offset `o`,
serially `add` the points `points[point_indices[o + i]]`, `i = 0..s-1`, into
the bucket slot, substituting `doubling` of the point operand whenever the raw
addition result has all-zero coordinates. -/
def accumulate_buckets_loop (buckets : ℕ → G) (offsets sizes pidx : ℕ → ℕ)
    (points : ℕ → G) : ℕ → G :=
  fun b =>
    if sizes b = 0 then buckets b
    else (List.range (sizes b)).foldl
      (fun acc i => addCheckSnd acc (points (pidx (offsets b + i)))) (buckets b)

/-- One iteration of the running-sum loop of `bucket_running_sum_kernel`
(`kernel.cu:469-506`) at bucket digit `i` of module `m`: the bucket sum is
added into `line_sum` by a raw `g1_gpu::add` (NO substitution,
`kernel.cu:470-480`), then `line_sum` is added into the module total with the
is_zero/doubling(line_sum) substitution (`kernel.cu:482-505`). -/
def rsStep (c : ℕ) (buckets : ℕ → G) (m i : ℕ) (st : G × G) : G × G :=
  let line := g1_add (buckets (m * 2 ^ c + i)) st.1
  let total := addCheckFst line st.2
  (line, total)

/-- The loop `for (unsigned i = (1 << c) - 2; i > 0; i--)` of
`bucket_running_sum_kernel`: `rsLoop c buckets m k st` processes digits
`k, k-1, ..., 1`. -/
def rsLoop (c : ℕ) (buckets : ℕ → G) (m : ℕ) : ℕ → G × G → G × G
  | 0, st => st
  | k + 1, st => rsLoop c buckets m k (rsStep c buckets m (k + 1) st)

/-- `bucket_running_sum_kernel` (`kernel.cu:445-507`) for module `m`:
`line_sum` and the module total both start at the top bucket
`buckets[(m+1) * 2^c - 1]`, then the running-sum loop walks digits
`2^c - 2` down to `1`.  Digit 0 (the zero bucket) is never read. -/
def bucket_running_sum_kernel (c : ℕ) (buckets : ℕ → G) (m : ℕ) : G :=
  let line0 := buckets ((m + 1) * 2 ^ c - 1)
  (rsLoop c buckets m (2 ^ c - 2) (line0, line0)).2

/-- Trace predicate for the UNPROTECTED line-sum addition of
`bucket_running_sum_kernel`: true when at no step the added bucket sum equals
the current (nonzero) `line_sum`, i.e. the raw addition formula never hits its
zero-producing edge case at the site that carries no doubling substitution. -/
def rsNoEdge (c : ℕ) (buckets : ℕ → G) (m : ℕ) : ℕ → G → Bool
  | 0, _ => true
  | k + 1, line =>
    if buckets (m * 2 ^ c + (k + 1)) = line ∧ line ≠ 0 then false
    else rsNoEdge c buckets m k (g1_add (buckets (m * 2 ^ c + (k + 1))) line)

/-- Whole-kernel edge-case-freeness for `bucket_running_sum_kernel`. -/
def bucket_running_sum_noEdge (c : ℕ) (buckets : ℕ → G) (m : ℕ) : Bool :=
  rsNoEdge c buckets m (2 ^ c - 2) (buckets ((m + 1) * 2 ^ c - 1))

/-- The segment loop of `bucket_running_sum_kernel_2` (`kernel.cu:539-574`)
for segment thread `k`, iterating `u = U-1` down to `0` (the `unsigned`
counter wraps past zero, ending the loop): first `G := add(S, G)` with the
is_zero/doubling(S) substitution (`kernel.cu:540-561`), then
`S := add(S, buckets[k * (1 << (M-1)) + u])` raw, NO substitution
(`kernel.cu:563-573`).  State is `(G, S)`. -/
def brs2Go (buckets : ℕ → G) (M k : ℕ) : ℕ → G × G → G × G
  | 0, st => st
  | u + 1, st =>
    let G1 := addCheckFst st.2 st.1
    let S1 := g1_add st.2 (buckets (k * 2 ^ (M - 1) + u))
    brs2Go buckets M k u (G1, S1)

/-- `bucket_running_sum_kernel_2` (`kernel.cu:513-583`): segment thread `k`
starts from `G = S = 0`, runs the segment loop, and stores `S` into `S_[k]`
and `G` into `G_[k]`.  Returns `(S_[k], G_[k])`. -/
def bucket_running_sum_kernel_2 (buckets : ℕ → G) (M U k : ℕ) : G × G :=
  let st := brs2Go buckets M k U (0, 0)
  (st.2, st.1)

/-- Floor base-2 logarithm with explicit fuel (structural recursion, so that
concrete evaluations reduce in the kernel).  `log2_nat (2^v) = v`, matching
the source's `log2f(U)` on the power-of-two segment sizes it is called with. -/
def log2_floor : ℕ → ℕ → ℕ
  | 0, _ => 0
  | fuel + 1, n => if 2 ≤ n then log2_floor fuel (n / 2) + 1 else 0

/-- Floor base-2 logarithm (`log2f` in the source). -/
def log2_nat (n : ℕ) : ℕ := log2_floor n n

/-- `bucket_running_sum_kernel_3` (`kernel.cu:585-708`) for window thread `k`:
(1) for `m = 0..M-2`, `S := add(S_[k*(M-1)+m], S)` raw, then
`S_k := add(S_k, S)` with the is_zero/doubling(S) substitution;
(2.2) double `S_k` `log2(U)` times;
(2.3) for `m = 0..M-1`, `G_k := add(G_k, G_[k*(M-1)+m])` raw, NO substitution;
(2.4) `add(S_k, G_k, G_k)` — result written into `G_k`;
finally the kernel loads `S_k` (not `G_k`) into `result`, so the 2.4 sum is
discarded. -/
def bucket_running_sum_kernel_3 (S_ G_ : ℕ → G) (M U k : ℕ) : G :=
  let st := (List.range (M - 1)).foldl
    (fun (st : G × G) m =>
      let S1 := g1_add (S_ (k * (M - 1) + m)) st.1
      let Sk1 := addCheckSnd st.2 S1
      (S1, Sk1)) (0, 0)
  let S_k := (List.range (log2_nat U)).foldl (fun Sk _ => g1_doubling Sk) st.2
  let G_k := (List.range M).foldl (fun Gk m => g1_add Gk (G_ (k * (M - 1) + m))) 0
  let _G_k_final := g1_add S_k G_k
  S_k

/-- The windowed two-pass reducer: `bucket_running_sum_kernel_2` over all
segments feeding `bucket_running_sum_kernel_3` for window `k`. -/
def windowed_running_sum (buckets : ℕ → G) (M U k : ℕ) : G :=
  bucket_running_sum_kernel_3
    (fun j => (bucket_running_sum_kernel_2 buckets M U j).1)
    (fun j => (bucket_running_sum_kernel_2 buckets M U j).2) M U k

/-- The module loop of `final_accumulation_kernel`
(`for (unsigned z = 26; z > 0; z--)`, `kernel.cu:727-784`): at step `z` the
running result is multiplied by the hard-coded exponent `{1024, 0, 0, 0}`
via the shared double-and-add bit loop, then `final_sum[z-1]` is added with
the is_zero/doubling(R) substitution (`kernel.cu:760-783`). -/
def faLoop (final_sum : ℕ → G) : ℕ → G → G
  | 0, acc => acc
  | z + 1, acc =>
    faLoop final_sum z
      (addCheckFst (scalarMulLoop (fun j => if j = 0 then 1024 else 0) acc) (final_sum z))

/-- `final_accumulation_kernel` (`kernel.cu:713-786`): initialises the result
to the identity and runs the module loop.  Its `num_bucket_modules` and `c`
parameters appear in the signature but are never read: the module count is the
literal `26` and the per-module scaling is the literal exponent `1024 = 2^10`. -/
def final_accumulation_kernel (final_sum : ℕ → G)
    (num_bucket_modules c : ℕ) : G :=
  faLoop final_sum 26 0

/-- The bucket-method MSM pipeline as launched on `n` points with window width
`c` and `m = num_bucket_modules`: split (src), counting sort (modelled from
the spec), bucket initialisation (src), the ACTIVE accumulation kernel (src),
the plain running-sum reduction per module (src), final accumulation (src). -/
def msm_pipeline (points : ℕ → G) (scalars : ℕ → ℕ → ℕ) (n m c : ℕ) : G :=
  let sizes := bucket_sizes scalars n m c
  let buckets0 : ℕ → G := init_buckets_kernel
  let buckets := accumulate_buckets_kernel buckets0 sizes
  let final_sum := fun i => bucket_running_sum_kernel c buckets i
  final_accumulation_kernel final_sum m c

/-- The bucket-method pipeline with the accumulation stage given the intended
semantics (the commented-out loop `kernel.cu:339-364`, which the spec §4.3/§9
declares authoritative); all other stages as in `msm_pipeline`. -/
def msm_pipeline_intended (points : ℕ → G) (scalars : ℕ → ℕ → ℕ) (n m c : ℕ) : G :=
  let sizes := bucket_sizes scalars n m c
  let offsets := bucket_offsets scalars n m c
  let pidx := sorted_point_indices scalars n m c
  let buckets0 : ℕ → G := init_buckets_kernel
  let buckets := accumulate_buckets_loop buckets0 offsets sizes pidx points
  let final_sum := fun i => bucket_running_sum_kernel c buckets i
  final_accumulation_kernel final_sum m c

/-- Modelled from the spec: §4.6 orchestrator dispatch (the host orchestrator
is not under the MSM source) — below a fixed threshold the naive
double-and-add kernel runs and no bucket-pipeline stage is launched;
otherwise the bucket pipeline runs. -/
def msm (threshold : ℕ) (points : ℕ → G) (scalars : ℕ → ℕ → ℕ) (n m c : ℕ) : G :=
  if n < threshold then double_and_add_kernel scalars points n
  else msm_pipeline points scalars n m c

end BucketKernels

section TestInputs

/-- The 4-limb scalar 1. -/
def scOne : ℕ → ℕ := fun j => if j = 0 then 1 else 0

/-- The 4-limb scalar 16. -/
def scSixteen : ℕ → ℕ := fun j => if j = 0 then 16 else 0

/-- The maximum BN254 scalar-field element `r - 1`, as little-endian 64-bit
limbs (the "field's maximum representable value" of the spec). -/
def frMax : ℕ → ℕ := fun j =>
  if j = 0 then 0x43e1f593f0000000
  else if j = 1 then 0x2833e84879b97091
  else if j = 2 then 0xb85045b68181585d
  else if j = 3 then 0x30644e72e131a029
  else 0

/-- Per-bucket sums `[0, 0, P, P]` (digit-2 and digit-3 buckets hold the same
point), `c = 2`, in the ℕ point model with `P = 1`. -/
def bucketsEq : ℕ → ℕ := fun k => if k = 2 then 1 else if k = 3 then 1 else 0

/-- Per-bucket sums `[0, 5P, 7P, 3P]`, `c = 2`, collision-free. -/
def bucketsDistinct : ℕ → ℕ :=
  fun k => if k = 1 then 5 else if k = 2 then 7 else if k = 3 then 3 else 0

/-- Per-bucket sums `[0, P, 0, 0]`, `c = 2`. -/
def bucketsLone : ℕ → ℕ := fun k => if k = 1 then 1 else 0

/-- A single input point `P` (index 0) in the ℕ point model. -/
def ptsSingle : ℕ → ℕ := fun t => if t = 0 then 1 else 0

/-- Per-module contributions: the identity at every module except `P` at
module 1. -/
def fsModuleOne : ℕ → ℕ := fun i => if i = 1 then 1 else 0

end TestInputs

set_option maxRecDepth 100000

section PointLemmas

variable {G : Type} [AddCommMonoid G] [DecidableEq G]

theorem g1_add_self (a : G) : g1_add a a = 0 := by
  simp [g1_add]

theorem g1_add_zero_right (a : G) : g1_add a 0 = a := by
  by_cases h : a = (0 : G)
  · subst h; simp [g1_add]
  · simp [g1_add, h]

theorem g1_add_zero_left (b : G) : g1_add 0 b = b := by
  by_cases h : (0 : G) = b
  · rw [← h]; simp [g1_add]
  · simp [g1_add, h]

theorem g1_add_of_ne {a b : G} (h : a ≠ b) : g1_add a b = a + b := by
  simp [g1_add, h]

theorem g1_doubling_zero : g1_doubling (0 : G) = 0 := by
  simp [g1_doubling]

end PointLemmas

section CanonicalLemmas

variable {G : Type} [CanonicallyOrderedAddCommMonoid G] [DecidableEq G]

/-- In the model carrier, an addition site protected by the is_zero check and
the doubling substitution always computes the true group sum: the raw formula
breaks only on equal operands, where doubling either operand equals the sum. -/
theorem addCheckFst_eq_add (a b : G) : addCheckFst a b = a + b := by
  by_cases hab : a = b
  · subst hab; simp [addCheckFst, g1_add, g1_doubling]
  · have h0 : a + b ≠ 0 := by
      intro h
      rcases add_eq_zero.mp h with ⟨h1, h2⟩
      exact hab (h1.trans h2.symm)
    simp [addCheckFst, g1_add, g1_doubling, hab, h0]

theorem addCheckSnd_eq_add (a b : G) : addCheckSnd a b = a + b := by
  by_cases hab : a = b
  · subst hab; simp [addCheckSnd, g1_add, g1_doubling]
  · have h0 : a + b ≠ 0 := by
      intro h
      rcases add_eq_zero.mp h with ⟨h1, h2⟩
      exact hab (h1.trans h2.symm)
    simp [addCheckSnd, g1_add, g1_doubling, hab, h0]

end CanonicalLemmas

section BitLoopLemmas

variable {G : Type} [AddCommMonoid G] [DecidableEq G]

theorem bitLoop_succ (v : ℕ) (Q : G) (i : ℕ) (R : G) :
    bitLoop v Q (i + 1) R =
      bitLoop v Q i
        (if i ≠ 0 then g1_doubling (if (v >>> i) &&& 1 = 1 then g1_add Q R else R)
         else if (v >>> i) &&& 1 = 1 then g1_add Q R else R) := rfl

theorem bitLoop_high_bits (v : ℕ) (Q : G) (k : ℕ)
    (hbits : ∀ i, k ≤ i → (v >>> i) &&& 1 ≠ 1) :
    ∀ j, k ≤ j → bitLoop v Q j 0 = bitLoop v Q k 0 := by
  intro j hj
  induction j, hj using Nat.le_induction with
  | base => rfl
  | succ j hj ih =>
    rw [bitLoop_succ, if_neg (hbits j hj)]
    have h2 : (if j ≠ 0 then g1_doubling (0 : G) else (0 : G)) = 0 := by
      split <;> simp [g1_doubling]
    rw [h2]
    exact ih

theorem bitLoop_doublings (v : ℕ) (Q : G) (k : ℕ)
    (hbits : ∀ i, i < k + 1 → (v >>> i) &&& 1 ≠ 1) :
    ∀ R, bitLoop v Q (k + 1) R = 2 ^ k • R := by
  induction k with
  | zero =>
    intro R
    rw [bitLoop_succ, if_neg (show ¬((0 : ℕ) ≠ 0) by omega),
      if_neg (hbits 0 (by omega))]
    simp [bitLoop]
  | succ k ih =>
    intro R
    rw [bitLoop_succ, if_pos (Nat.succ_ne_zero k), if_neg (hbits (k + 1) (by omega))]
    rw [ih (fun i hi => hbits i (by omega)) (g1_doubling R)]
    rw [g1_doubling, ← two_nsmul, ← mul_nsmul]
    rw [show 2 * 2 ^ k = 2 ^ (k + 1) by rw [pow_succ, Nat.mul_comm]]

theorem high_bit_zero {v k : ℕ} (h : v < 2 ^ k) :
    ∀ i, k ≤ i → (v >>> i) &&& 1 ≠ 1 := by
  intro i hi
  have hz : v >>> i = 0 := by
    rw [Nat.shiftRight_eq_div_pow]
    exact Nat.div_eq_of_lt (lt_of_lt_of_le h (Nat.pow_le_pow_right (by norm_num) hi))
  simp [hz]

theorem limbLoop_four (e : ℕ → ℕ) (Q : G) (R : G) :
    limbLoop e Q 4 R =
      bitLoop (e 0) Q 65 (bitLoop (e 1) Q 65 (bitLoop (e 2) Q 65 (bitLoop (e 3) Q 65 R))) := by
  rw [limbLoop, limbLoop, limbLoop, limbLoop, limbLoop]

theorem bitLoop_zero_val (Q : G) : bitLoop 0 Q 65 (0 : G) = 0 := by
  rw [bitLoop_high_bits 0 Q 0 (high_bit_zero (by norm_num)) 65 (by omega)]
  rfl

theorem scalarMulLoop_one (Q : G) :
    scalarMulLoop (fun j => if j = 0 then 1 else 0) Q = Q := by
  unfold scalarMulLoop
  rw [limbLoop_four]
  norm_num
  rw [bitLoop_zero_val, bitLoop_zero_val, bitLoop_zero_val]
  rw [bitLoop_high_bits 1 Q 1 (high_bit_zero (by norm_num)) 65 (by omega)]
  rw [bitLoop_succ, if_neg (show ¬((0 : ℕ) ≠ 0) by omega),
    if_pos (show (1 >>> 0) &&& 1 = 1 by decide), g1_add_zero_right]
  rfl

theorem scalarMulLoop_1024 (Q : G) :
    scalarMulLoop (fun j => if j = 0 then 1024 else 0) Q = 1024 • Q := by
  unfold scalarMulLoop
  rw [limbLoop_four]
  norm_num
  rw [bitLoop_zero_val, bitLoop_zero_val, bitLoop_zero_val]
  rw [bitLoop_high_bits 1024 Q 11 (high_bit_zero (by norm_num)) 65 (by omega)]
  rw [show (11 : ℕ) = 10 + 1 by omega]
  rw [bitLoop_succ, if_pos (show (10 : ℕ) ≠ 0 by omega),
    if_pos (show (1024 >>> 10) &&& 1 = 1 by decide), g1_add_zero_right]
  rw [show (10 : ℕ) = 9 + 1 by omega]
  rw [bitLoop_doublings 1024 Q 9 (by decide) (g1_doubling Q)]
  rw [g1_doubling, ← two_nsmul, ← mul_nsmul]
  norm_num

end BitLoopLemmas

section FinalAccumulationLemmas

variable {G : Type} [CanonicallyOrderedAddCommMonoid G] [DecidableEq G]

theorem faLoop_eq (fs : ℕ → G) :
    ∀ z acc, faLoop fs z acc = 1024 ^ z • acc + ∑ i in Finset.range z, 1024 ^ i • fs i := by
  intro z
  induction z with
  | zero => intro acc; simp [faLoop]
  | succ z ih =>
    intro acc
    rw [faLoop, ih, scalarMulLoop_1024, addCheckFst_eq_add]
    rw [Finset.sum_range_succ, smul_add, ← mul_nsmul]
    rw [show (1024 : ℕ) * 1024 ^ z = 1024 ^ (z + 1) by rw [pow_succ, Nat.mul_comm]]
    abel

/-- What `final_accumulation_kernel` actually computes, for any arguments:
the weights are fixed at `2^(10*i)` over exactly 26 modules. -/
theorem final_accumulation_kernel_eq (fs : ℕ → G) (n c : ℕ) :
    final_accumulation_kernel fs n c = ∑ i in Finset.range 26, 2 ^ (10 * i) • fs i := by
  unfold final_accumulation_kernel
  rw [faLoop_eq, smul_zero, zero_add]
  exact Finset.sum_congr rfl (fun i _ => by
    rw [show (1024 : ℕ) = 2 ^ 10 by norm_num, ← pow_mul])

end FinalAccumulationLemmas

section RunningSumLemmas

variable {G : Type} [CanonicallyOrderedAddCommMonoid G] [DecidableEq G]

theorem rsLoop_eq (c : ℕ) (buckets : ℕ → G) (m : ℕ) :
    ∀ k line total, rsNoEdge c buckets m k line = true →
      rsLoop c buckets m k (line, total) =
        (line + ∑ i in Finset.range k, buckets (m * 2 ^ c + (i + 1)),
         total + k • line + ∑ i in Finset.range k, (i + 1) • buckets (m * 2 ^ c + (i + 1))) := by
  intro k
  induction k with
  | zero => intro line total _; simp [rsLoop]
  | succ k ih =>
    intro line total h
    rw [rsNoEdge] at h
    by_cases hcl : buckets (m * 2 ^ c + (k + 1)) = line ∧ line ≠ 0
    · rw [if_pos hcl] at h; exact absurd h (by simp)
    · rw [if_neg hcl] at h
      have hline : g1_add (buckets (m * 2 ^ c + (k + 1))) line
          = buckets (m * 2 ^ c + (k + 1)) + line := by
        by_cases he : buckets (m * 2 ^ c + (k + 1)) = line
        · have hz : line = 0 := by
            by_contra hnz
            exact hcl ⟨he, hnz⟩
          rw [he, hz, g1_add_self, add_zero]
        · exact g1_add_of_ne he
      have hstep : rsStep c buckets m (k + 1) (line, total)
          = (buckets (m * 2 ^ c + (k + 1)) + line,
             buckets (m * 2 ^ c + (k + 1)) + line + total) := by
        rw [rsStep]
        simp only [hline, addCheckFst_eq_add]
      rw [rsLoop, hstep, ih _ _ (by rw [← hline]; exact h)]
      simp only [Prod.mk.injEq]
      constructor
      · rw [Finset.sum_range_succ]
        abel
      · rw [Finset.sum_range_succ, smul_add, succ_nsmul, succ_nsmul]
        abel

/-- What `bucket_running_sum_kernel` computes for module `m` when the raw
addition formula never hits its zero-producing edge case at the unprotected
line-sum addition: the weighted bucket sum over digits `1 .. 2^c - 1`
(equivalently over all digits, digit 0 having weight zero). -/
theorem bucket_running_sum_kernel_eq (c : ℕ) (buckets : ℕ → G) (m : ℕ)
    (hc : 1 ≤ c) (h : bucket_running_sum_noEdge c buckets m = true) :
    bucket_running_sum_kernel c buckets m =
      ∑ d in Finset.range (2 ^ c), d • buckets (m * 2 ^ c + d) := by
  have h2 : 2 ≤ 2 ^ c := by
    calc 2 = 2 ^ 1 := (pow_one 2).symm
    _ ≤ 2 ^ c := Nat.pow_le_pow_right (by norm_num) hc
  have htop : (m + 1) * 2 ^ c - 1 = m * 2 ^ c + (2 ^ c - 1) := by
    rw [add_mul, one_mul]
    omega
  unfold bucket_running_sum_noEdge at h
  have hker : bucket_running_sum_kernel c buckets m
      = (rsLoop c buckets m (2 ^ c - 2)
          (buckets ((m + 1) * 2 ^ c - 1), buckets ((m + 1) * 2 ^ c - 1))).2 := rfl
  rw [hker, rsLoop_eq c buckets m _ _ _ h, htop]
  obtain ⟨s, hs⟩ : ∃ s, 2 ^ c = s + 2 := ⟨2 ^ c - 2, by omega⟩
  rw [hs]
  have e1 : s + 2 - 1 = s + 1 := by omega
  have e2 : s + 2 - 2 = s := by omega
  rw [e1, e2, Finset.sum_range_succ, Finset.sum_range_succ']
  simp only [zero_smul, add_zero, succ_nsmul]
  abel

end RunningSumLemmas

section DecomposeLemmas

theorem lowdiv {low d B : ℕ} (h : low < d) (hd : 0 < d) : (low + d * B) / d = B := by
  rw [Nat.add_mul_div_left _ _ hd, Nat.div_eq_of_lt h, Nat.zero_add]

theorem fr_val_div (scalar : ℕ → ℕ) (hd : ∀ j, scalar j < 2 ^ 64)
    (hz : ∀ j, 4 ≤ j → scalar j = 0) (l s : ℕ) (hl : l < 4) (hs : s < 64) :
    fr_val scalar / 2 ^ (64 * l + s) = scalar l / 2 ^ s + 2 ^ (64 - s) * hiPart scalar l := by
  have e64 : (2 : ℕ) ^ 64 = 2 ^ s * 2 ^ (64 - s) := by
    rw [← pow_add]
    congr 1
    omega
  have hsplit : fr_val scalar / 2 ^ (64 * l) = scalar l + 2 ^ 64 * hiPart scalar l := by
    interval_cases l
    · rw [show fr_val scalar = 0 + 2 ^ (64 * 0) * (scalar 0 + 2 ^ 64 * hiPart scalar 0) from by
        unfold fr_val hiPart
        norm_num
        ring]
      exact lowdiv (by norm_num) (Nat.two_pow_pos _)
    · rw [show fr_val scalar = scalar 0 + 2 ^ (64 * 1) * (scalar 1 + 2 ^ 64 * hiPart scalar 1) from by
        unfold fr_val hiPart
        norm_num
        rw [hz 4 (by omega)]
        ring]
      exact lowdiv (hd 0) (Nat.two_pow_pos _)
    · have hb : scalar 0 + scalar 1 * 2 ^ 64 < 2 ^ (64 * 2) := by
        have h0 := hd 0
        have h1 := hd 1
        have e : (2 : ℕ) ^ 64 = 18446744073709551616 := by norm_num
        rw [e] at h0 h1
        rw [show (64 : ℕ) * 2 = 128 from by norm_num,
          show (2 : ℕ) ^ 128 = 18446744073709551616 * 18446744073709551616 from by norm_num, e]
        nlinarith
      rw [show fr_val scalar
            = (scalar 0 + scalar 1 * 2 ^ 64) + 2 ^ (64 * 2) * (scalar 2 + 2 ^ 64 * hiPart scalar 2) from by
        unfold fr_val hiPart
        norm_num
        rw [hz 4 (by omega), hz 5 (by omega)]
        ring]
      exact lowdiv hb (Nat.two_pow_pos _)
    · have hb : scalar 0 + scalar 1 * 2 ^ 64 + scalar 2 * 2 ^ 128 < 2 ^ (64 * 3) := by
        have h0 := hd 0
        have h1 := hd 1
        have h2 := hd 2
        have e : (2 : ℕ) ^ 64 = 18446744073709551616 := by norm_num
        have e2 : (2 : ℕ) ^ 128 = 18446744073709551616 * 18446744073709551616 := by norm_num
        rw [e] at h0 h1 h2
        rw [show (64 : ℕ) * 3 = 192 from by norm_num,
          show (2 : ℕ) ^ 192
            = 18446744073709551616 * (18446744073709551616 * 18446744073709551616) from by norm_num,
          e, e2]
        nlinarith
      rw [show fr_val scalar
            = (scalar 0 + scalar 1 * 2 ^ 64 + scalar 2 * 2 ^ 128)
              + 2 ^ (64 * 3) * (scalar 3 + 2 ^ 64 * hiPart scalar 3) from by
        unfold fr_val hiPart
        norm_num
        rw [hz 4 (by omega), hz 5 (by omega), hz 6 (by omega)]
        ring]
      exact lowdiv hb (Nat.two_pow_pos _)
  rw [pow_add, ← Nat.div_div_eq_div_mul, hsplit]
  rw [show (2 : ℕ) ^ 64 * hiPart scalar l = 2 ^ s * (2 ^ (64 - s) * hiPart scalar l)
      from by rw [e64]; ring]
  rw [Nat.add_mul_div_left _ _ (Nat.two_pow_pos s)]

end DecomposeLemmas

section DigitLemmas

theorem fr_val_lt (scalar : ℕ → ℕ) (hd : ∀ j, scalar j < 2 ^ 64) :
    fr_val scalar < 2 ^ 256 := by
  unfold fr_val
  have h0 := hd 0
  have h1 := hd 1
  have h2 := hd 2
  have h3 := hd 3
  have e : (2 : ℕ) ^ 64 = 18446744073709551616 := by norm_num
  rw [e] at h0 h1 h2 h3
  rw [e, show (2 : ℕ) ^ 128 = 18446744073709551616 ^ 2 from by norm_num,
    show (2 : ℕ) ^ 192 = 18446744073709551616 ^ 3 from by norm_num,
    show (2 : ℕ) ^ 256 = 18446744073709551616 ^ 4 from by norm_num]
  norm_num
  omega

/-- Core characterisation of `decompose_scalar_digit`: on a well-formed
4-limb scalar it extracts exactly window `num` of width `c` of the scalar's
value, for every window index (windows above the limb array read the
zero-extension), provided `c ≤ 30` (faithfulness range of the C `int` mask). -/
theorem decompose_eq_window (scalar : ℕ → ℕ) (hd : ∀ j, scalar j < 2 ^ 64)
    (hz : ∀ j, 4 ≤ j → scalar j = 0) (i c : ℕ) (hc2 : c ≤ 30) :
    decompose_scalar_digit scalar i c = fr_val scalar / 2 ^ (i * c) % 2 ^ c := by
  obtain ⟨l, s, hls, hs, hdiv, hmod⟩ :
      ∃ l s, i * c = 64 * l + s ∧ s < 64 ∧ i * c / 64 = l ∧ i * c % 64 = s :=
    ⟨i * c / 64, i * c % 64, (Nat.div_add_mod _ _).symm, Nat.mod_lt _ (by norm_num), rfl, rfl⟩
  have hdef : decompose_scalar_digit scalar i c =
      (if 64 < s + c ∧ l + 1 < 4 then
        (scalar l >>> s + (scalar (l + 1) <<< (64 - s)) % 2 ^ 64) % 2 ^ 64
      else scalar l >>> s) &&& ((1 <<< c) - 1) := by
    simp only [decompose_scalar_digit]
    rw [hdiv, hmod]
  rw [hdef, Nat.one_shiftLeft, Nat.and_pow_two_sub_one_eq_mod, hls]
  by_cases hl4 : l < 4
  · rw [fr_val_div scalar hd hz l s hl4 hs, Nat.shiftRight_eq_div_pow]
    by_cases hcross : 64 < s + c
    · by_cases hnext : l + 1 < 4
      · -- window straddles the limb boundary and the next limb exists
        rw [if_pos ⟨hcross, hnext⟩]
        rw [Nat.shiftLeft_eq]
        have hAB : (2 : ℕ) ^ s * 2 ^ (64 - s) = 2 ^ 64 := by
          rw [← pow_add]
          congr 1
          omega
        have hmm : scalar (l + 1) * 2 ^ (64 - s) % 2 ^ 64
            = scalar (l + 1) % 2 ^ s * 2 ^ (64 - s) := by
          rw [← hAB]
          exact Nat.mul_mod_mul_right _ _ _
        rw [hmm]
        have h1 : scalar l / 2 ^ s < 2 ^ (64 - s) := by
          rw [Nat.div_lt_iff_lt_mul (Nat.two_pow_pos s)]
          calc scalar l < 2 ^ 64 := hd l
          _ = 2 ^ (64 - s) * 2 ^ s := by rw [← pow_add]; congr 1; omega
        have h2 : scalar (l + 1) % 2 ^ s ≤ 2 ^ s - 1 := by
          have := Nat.mod_lt (scalar (l + 1)) (Nat.two_pow_pos s)
          omega
        have hlt : scalar l / 2 ^ s + scalar (l + 1) % 2 ^ s * 2 ^ (64 - s) < 2 ^ 64 := by
          have h3 : scalar (l + 1) % 2 ^ s * 2 ^ (64 - s) ≤ (2 ^ s - 1) * 2 ^ (64 - s) :=
            Nat.mul_le_mul_right _ h2
          have h4 : (2 ^ s - 1) * 2 ^ (64 - s) + 2 ^ (64 - s) = 2 ^ 64 := by
            have h5 : 1 ≤ (2 : ℕ) ^ s := Nat.one_le_two_pow
            calc (2 ^ s - 1) * 2 ^ (64 - s) + 2 ^ (64 - s)
                = (2 ^ s - 1 + 1) * 2 ^ (64 - s) := by rw [add_mul, one_mul]
            _ = 2 ^ s * 2 ^ (64 - s) := by rw [Nat.sub_add_cancel h5]
            _ = 2 ^ 64 := hAB
          omega
        rw [Nat.mod_eq_of_lt hlt]
        -- both sides modulo 2^c differ by multiples of 2^64
        show Nat.ModEq (2 ^ c)
          (scalar l / 2 ^ s + scalar (l + 1) % 2 ^ s * 2 ^ (64 - s))
          (scalar l / 2 ^ s + 2 ^ (64 - s) * hiPart scalar l)
        apply Nat.ModEq.add_left
        unfold hiPart
        rw [mul_add, mul_add]
        have hc64 : (2 : ℕ) ^ c ∣ 2 ^ 64 := pow_dvd_pow 2 (by omega)
        have m2 : (0 : ℕ) ≡ 2 ^ (64 - s) * (scalar (l + 2) * 2 ^ 64) [MOD 2 ^ c] := by
          apply (Nat.modEq_zero_iff_dvd.mpr _).symm
          exact Dvd.dvd.mul_left (Dvd.dvd.mul_left hc64 _) _
        have m3 : (0 : ℕ) ≡ 2 ^ (64 - s) * (scalar (l + 3) * 2 ^ 128) [MOD 2 ^ c] := by
          apply (Nat.modEq_zero_iff_dvd.mpr _).symm
          have : (2 : ℕ) ^ c ∣ 2 ^ 128 := pow_dvd_pow 2 (by omega)
          exact Dvd.dvd.mul_left (Dvd.dvd.mul_left this _) _
        have m1 : scalar (l + 1) % 2 ^ s * 2 ^ (64 - s)
            ≡ 2 ^ (64 - s) * scalar (l + 1) [MOD 2 ^ c] := by
          conv_rhs => rw [show scalar (l + 1)
              = 2 ^ s * (scalar (l + 1) / 2 ^ s) + scalar (l + 1) % 2 ^ s
            from (Nat.div_add_mod _ _).symm]
          rw [mul_add, ← mul_assoc, show (2 : ℕ) ^ (64 - s) * 2 ^ s = 2 ^ 64 from by
            rw [← pow_add]; congr 1; omega]
          have mq : (0 : ℕ) ≡ 2 ^ 64 * (scalar (l + 1) / 2 ^ s) [MOD 2 ^ c] := by
            apply (Nat.modEq_zero_iff_dvd.mpr _).symm
            exact Dvd.dvd.mul_right hc64 _
          calc scalar (l + 1) % 2 ^ s * 2 ^ (64 - s)
              = 0 + 2 ^ (64 - s) * (scalar (l + 1) % 2 ^ s) := by rw [zero_add, mul_comm]
          _ ≡ 2 ^ 64 * (scalar (l + 1) / 2 ^ s) + 2 ^ (64 - s) * (scalar (l + 1) % 2 ^ s)
              [MOD 2 ^ c] := Nat.ModEq.add_right _ mq
        calc scalar (l + 1) % 2 ^ s * 2 ^ (64 - s)
            = scalar (l + 1) % 2 ^ s * 2 ^ (64 - s) + 0 + 0 := by omega
        _ ≡ 2 ^ (64 - s) * scalar (l + 1) + 2 ^ (64 - s) * (scalar (l + 2) * 2 ^ 64)
              + 2 ^ (64 - s) * (scalar (l + 3) * 2 ^ 128) [MOD 2 ^ c] :=
          Nat.ModEq.add (Nat.ModEq.add m1 m2) m3
      · -- window straddles the top of the limb array: no fold-in, high part zero
        rw [if_neg (by tauto)]
        have hl3 : l = 3 := by omega
        have hHP : hiPart scalar l = 0 := by
          unfold hiPart
          rw [hl3]
          rw [show (3 : ℕ) + 1 = 4 from rfl, show (3 : ℕ) + 2 = 5 from rfl,
            show (3 : ℕ) + 3 = 6 from rfl]
          rw [hz 4 (by omega), hz 5 (by omega), hz 6 (by omega)]
          norm_num
        rw [hHP, Nat.mul_zero, Nat.add_zero]
    · -- window contained in one limb
      rw [if_neg (by tauto)]
      have hsplit : (2 : ℕ) ^ (64 - s) = 2 ^ c * 2 ^ (64 - s - c) := by
        rw [← pow_add]
        congr 1
        omega
      rw [hsplit, mul_assoc, Nat.add_mul_mod_self_left]
  · -- the window lies entirely above the limb array: both sides are zero
    have hcond : ¬(64 < s + c ∧ l + 1 < 4) := by omega
    rw [if_neg hcond, hz l (by omega)]
    have hrhs : fr_val scalar / 2 ^ (64 * l + s) = 0 := by
      apply Nat.div_eq_of_lt
      calc fr_val scalar < 2 ^ 256 := fr_val_lt scalar hd
      _ ≤ 2 ^ (64 * l + s) := Nat.pow_le_pow_right (by norm_num) (by omega)
    rw [hrhs]
    simp

end DigitLemmas

section ReconstructLemmas

theorem base_digits_sum (b v : ℕ) :
    ∀ m, (∑ i in Finset.range m, v / b ^ i % b * b ^ i) = v % b ^ m := by
  intro m
  induction m generalizing v with
  | zero => simp [Nat.mod_one]
  | succ m ih =>
    rw [Finset.sum_range_succ']
    simp only [pow_zero, Nat.div_one, mul_one]
    have hstep : ∀ i, v / b ^ (i + 1) % b * b ^ (i + 1)
        = b * (v / b / b ^ i % b * b ^ i) := by
      intro i
      rw [pow_succ', ← Nat.div_div_eq_div_mul]
      ring
    rw [Finset.sum_congr rfl (fun i _ => hstep i), ← Finset.mul_sum, ih (v / b)]
    rw [pow_succ', Nat.mod_mul]
    omega

end ReconstructLemmas

section ClaimTheorems

/-- C6: for every well-formed 4-limb scalar (including zero and the field's
maximum representable value), decomposing it with `decompose_scalar_digit`
into `num_bucket_modules` digits of width `c` and recombining the digits as
Σ digit_i · 2^(c·i) reconstructs the scalar exactly whenever the scalar fits
in `c * num_bucket_modules` bits, and every returned digit lies in `[0, 2^c)`
(for every window index, not only those below `num_bucket_modules`).  The
bound `c ≤ 30` is the faithfulness range of the C `int` mask
`(1 << width) - 1`. -/
theorem C6_decompose_recompose (scalar : ℕ → ℕ) (m c : ℕ)
    (hd : ∀ j, scalar j < 2 ^ 64) (hz : ∀ j, 4 ≤ j → scalar j = 0)
    (hc1 : 1 ≤ c) (hc2 : c ≤ 30) (hv : fr_val scalar < 2 ^ (c * m)) :
    (∀ i, decompose_scalar_digit scalar i c < 2 ^ c) ∧
      (∑ i in Finset.range m, decompose_scalar_digit scalar i c * 2 ^ (c * i))
        = fr_val scalar := by
  constructor
  · intro i
    rw [decompose_eq_window scalar hd hz i c hc2]
    exact Nat.mod_lt _ (Nat.two_pow_pos c)
  · have hterm : ∀ i, i ∈ Finset.range m →
        decompose_scalar_digit scalar i c * 2 ^ (c * i)
          = fr_val scalar / (2 ^ c) ^ i % 2 ^ c * (2 ^ c) ^ i := by
      intro i _
      rw [decompose_eq_window scalar hd hz i c hc2, mul_comm i c, pow_mul]
    rw [Finset.sum_congr rfl hterm, base_digits_sum, ← pow_mul]
    exact Nat.mod_eq_of_lt hv

/-- C6 witness: the theorem applied to the field's maximum representable value
`r - 1` with the production parameters `c = 10`, `num_bucket_modules = 26`. -/
theorem C6_decompose_recompose_witness :
    fr_val frMax < 2 ^ (10 * 26) ∧
      ((∀ i, decompose_scalar_digit frMax i 10 < 2 ^ 10) ∧
        (∑ i in Finset.range 26, decompose_scalar_digit frMax i 10 * 2 ^ (10 * i))
          = fr_val frMax) :=
  ⟨by decide,
   C6_decompose_recompose frMax 26 10
     (by intro j; unfold frMax; split_ifs <;> decide)
     (by intro j hj; unfold frMax; split_ifs with h1 h2 h3 h4 <;> omega)
     (by decide) (by decide) (by decide)⟩

/-- C3 counterexample: `final_accumulation_kernel` called with
`num_bucket_modules = 2` and `c = 4` on contributions `[0, P]` does NOT return
Σ_i contribution_i · 2^(c·i) = 2^4 · P — it returns 2^10 · P, because the
kernel ignores `c`. -/
theorem C3_counterexample :
    final_accumulation_kernel fsModuleOne 2 4
      ≠ ∑ i in Finset.range 2, 2 ^ (4 * i) • fsModuleOne i := by decide

/-- C3 (amended): `final_accumulation_kernel` initialises the result to the
identity and, for each of exactly 26 modules from the highest index down,
multiplies the running result by the hard-coded 2^10 (by double-and-add on the
literal exponent 1024) and adds that module's contribution — it returns
Σ_{i<26} contribution_i · 2^(10·i) regardless of its `num_bucket_modules` and
`c` parameters. -/
theorem C3_final_accumulation_fixed {G : Type} [CanonicallyOrderedAddCommMonoid G]
    [DecidableEq G] (fs : ℕ → G) (num_bucket_modules c : ℕ) :
    final_accumulation_kernel fs num_bucket_modules c
      = ∑ i in Finset.range 26, 2 ^ (10 * i) • fs i :=
  final_accumulation_kernel_eq fs num_bucket_modules c

/-- C10: `final_accumulation_kernel` writes the same result for any two pairs
of `(num_bucket_modules, c)` argument values — its output never reads them
(the module count is the literal 26 and the scaling the literal 1024). -/
theorem C10_final_accumulation_param_independent {G : Type} [AddCommMonoid G]
    [DecidableEq G] (fs : ℕ → G) (n c n' c' : ℕ) :
    final_accumulation_kernel fs n c = final_accumulation_kernel fs n' c' := rfl

/-- C5 counterexample: on the per-bucket sums `[0, 0, P, P]` with `c = 2`, the
running-sum kernel returns `P`, not Σ_{d} d·bucket[d] = 5P: the line-sum
addition `add(buckets[i], line_sum, line_sum)` carries no is_zero/doubling
substitution, and adding the equal points `buckets[2] = line_sum = P` hits the
raw formula's zero-producing edge case. -/
theorem C5_counterexample :
    bucket_running_sum_kernel 2 bucketsEq 0
      ≠ ∑ d in Finset.range (2 ^ 2), d • bucketsEq (0 * 2 ^ 2 + d) := by decide

/-- C5 (amended): for every module and every array of `2^c` per-bucket sums
SUCH THAT the unprotected line-sum addition never hits the raw formula's
equal-operands edge case, `bucket_running_sum_kernel` computes the module
total Σ_{d=1}^{2^c-1} d · bucket_sum[d], iterating `d` downward from
`2^c - 1` to `1` with the running accumulator `line_sum`; the digit-0 bucket
is never included (its weight in the sum below is 0). -/
theorem C5_running_sum {G : Type} [CanonicallyOrderedAddCommMonoid G]
    [DecidableEq G] (c : ℕ) (buckets : ℕ → G) (m : ℕ) (hc : 1 ≤ c)
    (h : bucket_running_sum_noEdge c buckets m = true) :
    bucket_running_sum_kernel c buckets m
      = ∑ d in Finset.range (2 ^ c), d • buckets (m * 2 ^ c + d) :=
  bucket_running_sum_kernel_eq c buckets m hc h

/-- C5 witness: collision-free bucket sums `[0, 5P, 7P, 3P]`, `c = 2`,
module 0: the kernel returns `5P + 2·7P + 3·3P = 28P`. -/
theorem C5_running_sum_witness :
    ((1 : ℕ) ≤ 2 ∧ bucket_running_sum_noEdge 2 bucketsDistinct 0 = true) ∧
      bucket_running_sum_kernel 2 bucketsDistinct 0
        = ∑ d in Finset.range (2 ^ 2), d • bucketsDistinct (0 * 2 ^ 2 + d) :=
  ⟨⟨by decide, by decide⟩, C5_running_sum 2 bucketsDistinct 0 (by decide) (by decide)⟩

/-- C9: for input size n = 0 the orchestrator dispatch (threshold positive)
takes the naive branch — no bucket-pipeline stage runs — and the naive
double-and-add kernel on zero points returns the identity point. -/
theorem C9_msm_zero_points {G : Type} [AddCommMonoid G] [DecidableEq G]
    (threshold : ℕ) (points : ℕ → G) (scalars : ℕ → ℕ → ℕ) (m c : ℕ)
    (ht : 0 < threshold) :
    msm threshold points scalars 0 m c = double_and_add_kernel scalars points 0 ∧
      msm threshold points scalars 0 m c = 0 := by
  have hbranch : msm threshold points scalars 0 m c
      = double_and_add_kernel scalars points 0 := by
    unfold msm
    rw [if_pos ht]
  exact ⟨hbranch, by rw [hbranch]; rfl⟩

/-- C9 witness: threshold 1 (any positive threshold), n = 0. -/
theorem C9_msm_zero_points_witness :
    0 < 1 ∧
      (msm 1 (fun _ => (0 : ℕ)) (fun _ _ => 0) 0 1 1
          = double_and_add_kernel (fun _ _ => 0) (fun _ => (0 : ℕ)) 0 ∧
        msm 1 (fun _ => (0 : ℕ)) (fun _ _ => 0) 0 1 1 = 0) :=
  ⟨by decide, C9_msm_zero_points 1 (fun _ => (0 : ℕ)) (fun _ _ => 0) 1 1 (by decide)⟩

end ClaimTheorems

section ClaimTheorems2

/-- C1 (failing input): on one point P with scalar 1 (window width 2, two
bucket modules), the bucket pipeline as written returns the identity — the
active `accumulate_buckets_kernel` discards the value returned by
`thrust::reduce` and never writes a bucket sum, so every bucket stays at its
initialised zero — while the naive double-and-add kernel returns P.  The two
paths therefore do NOT agree on the same input. -/
theorem C1_pipeline_vs_naive :
    msm_pipeline ptsSingle (fun _ => scOne) 1 2 2 = 0 ∧
      double_and_add_kernel (fun _ => scOne) ptsSingle 1 = 1 ∧ (0 : ℕ) ≠ 1 := by
  decide

/-- C2 (failing input): with the bucket-accumulation stage given its intended
(commented-out in-source) semantics, the same input — one point P, scalar
16 — produces 2^20·P under (c = 2, num_bucket_modules = 3) but 2^10·P under
(c = 4, num_bucket_modules = 2): `final_accumulation_kernel` weights module
`i` by the hard-coded 2^(10·i) whatever `c` is, so the window width DOES
change the computed result. -/
theorem C2_c_changes_result :
    msm_pipeline_intended ptsSingle (fun _ => scSixteen) 1 3 2 = 2 ^ 20 ∧
      msm_pipeline_intended ptsSingle (fun _ => scSixteen) 1 2 4 = 2 ^ 10 ∧
      (2 : ℕ) ^ 20 ≠ 2 ^ 10 := by
  decide

/-- C4 (failing input): one bucket (key 0) of size 1 at offset 0 holding
point P ≠ 0.  The ACTIVE `accumulate_buckets_kernel` leaves the slot at the
initialised identity instead of storing the bucket's point sum P; the
commented-out in-source loop (the spec's intended semantics) stores P. -/
theorem C4_accumulate_writes_nothing :
    accumulate_buckets_kernel (init_buckets_kernel (G := ℕ))
        (fun k => if k = 0 then 1 else 0) 0 = 0 ∧
      accumulate_buckets_loop (init_buckets_kernel (G := ℕ))
        (fun _ => 0) (fun k => if k = 0 then 1 else 0) (fun _ => 0) ptsSingle 0 = 1 ∧
      (0 : ℕ) ≠ 1 := by
  decide

/-- C7 (failing input): buckets `[0, P, 0, 0]`, `c = 2`, `M = U = 2`
(`M * U = 2^c`).  The plain running-sum reducer returns `P`; the windowed
two-pass pair returns `2P` — `bucket_running_sum_kernel_3` doubles its
segment running sum `log2 U` times and then loads the result from `S_k`,
discarding the final `G_k` accumulation, so the two variants are NOT
bit-identical. -/
theorem C7_windowed_vs_plain :
    bucket_running_sum_kernel 2 bucketsLone 0 = 1 ∧
      windowed_running_sum bucketsLone 2 2 0 = 2 ∧ (1 : ℕ) ≠ 2 := by
  decide

/-- C8 counterexample: `double_and_add_kernel` on duplicate inputs
(points [P, P], scalars [1, 1]) reaches a final-accumulation addition of two
equal operands; the raw formula yields the all-zero result and the kernel
keeps it — the result is NOT replaced by the doubling of an operand (which
would be 2P ≠ 0).  So not every addition site carries the substitution. -/
theorem C8_counterexample :
    double_and_add_kernel (fun _ => scOne) (fun _ => (1 : ℕ)) 2 = 0 ∧
      g1_doubling (1 : ℕ) ≠ 0 := by
  decide

end ClaimTheorems2

section ClaimTheorems3

/-- C8 (amended): the is_zero/doubling substitution is present at the
additions that write a kernel's accumulated total (the running-sum total
update, the windowed reducers' segment-total updates, the final-accumulation
site, and the commented bucket-accumulation loop), but it is absent from
`double_and_add_kernel` and from the line-sum/segment-sum updates.  Shown
behaviourally: on buckets `[b0, B1, 0, x]` (`c = 2`, `B1 ≠ x ≠ 0`) the
running-sum kernel's protected total update hits the raw formula's zero
result (`line_sum = total = x`) and the substitution restores the correct
total `B1 + 3x`; on the same point `x` the naive kernel's unprotected
accumulation add returns the all-zero result instead. -/
theorem C8_substitution_present_and_absent (b0 B1 x : ℕ) (hx : x ≠ 0) (hB : B1 ≠ x) :
    bucket_running_sum_kernel 2
        (fun k => if k = 0 then b0 else if k = 1 then B1 else if k = 3 then x else 0) 0
        = B1 + 3 * x ∧
      double_and_add_kernel (fun _ => scOne) (fun _ => x) 2 = 0 := by
  constructor
  · show (rsStep 2 _ 0 1 (rsStep 2 _ 0 2 (x, x))).2 = B1 + 3 * x
    simp only [rsStep, addCheckFst, g1_add, g1_doubling]
    norm_num
    split_ifs <;> omega
  · have hsml : scalarMulLoop scOne x = x := scalarMulLoop_one x
    show g1_add (scalarMulLoop scOne x) (g1_add (scalarMulLoop scOne x) 0) = 0
    rw [hsml, g1_add_zero_right, g1_add_self]

/-- C8 amended-claim witness: `b0 = 5`, `B1 = 2`, `x = 1`. -/
theorem C8_substitution_witness :
    ((1 : ℕ) ≠ 0 ∧ (2 : ℕ) ≠ 1) ∧
      (bucket_running_sum_kernel 2
          (fun k => if k = 0 then 5 else if k = 1 then 2 else if k = 3 then 1 else 0) 0
          = 2 + 3 * 1 ∧
        double_and_add_kernel (fun _ => scOne) (fun _ => (1 : ℕ)) 2 = 0) :=
  ⟨⟨by decide, by decide⟩,
   C8_substitution_present_and_absent 5 2 1 (by decide) (by decide)⟩

/-- C3 amended-claim witness: contributions `[0, P]`, arguments
`num_bucket_modules = 2`, `c = 4`. -/
theorem C3_final_accumulation_fixed_witness :
    final_accumulation_kernel fsModuleOne 2 4
      = ∑ i in Finset.range 26, 2 ^ (10 * i) • fsModuleOne i :=
  C3_final_accumulation_fixed fsModuleOne 2 4

/-- C10 witness: two unrelated argument pairs give the same output. -/
theorem C10_param_independent_witness :
    final_accumulation_kernel fsModuleOne 3 7 = final_accumulation_kernel fsModuleOne 11 4 :=
  C10_final_accumulation_param_independent fsModuleOne 3 7 11 4

end ClaimTheorems3
